import Mathlib

/-!
Verification of the search-and-merge subsystem of the vacancy-tracker
application (`main.go`).

The Go source is shallowly embedded: every definition below translates a
concrete piece of `main.go` (the function and line range are named in its
doc comment).  Strings are Lean `String`s; Go's byte-lexicographic string
comparison is modelled as codepoint-lexicographic comparison (identical on
valid UTF-8); Go's `strings.ToLower` / `strings.EqualFold` simple case
folding is modelled on the ASCII and basic Cyrillic letter ranges, the only
ranges exercised by the program's data (statuses, experience levels and
search-field labels are Russian/ASCII text).
-/

namespace VacancyApp

/-! ## Model of the Go `strings` primitives used by `main.go` -/

/-- Case folding of one character, modelling Go's `unicode.ToLower` on the
ASCII range `A`–`Z` (65–90) and the basic Cyrillic range `А`–`Я`
(1040–1071); both ranges map to lower case by adding 32. -/
def lowerChar (c : Char) : Char :=
  if (65 ≤ c.toNat ∧ c.toNat ≤ 90) ∨ (1040 ≤ c.toNat ∧ c.toNat ≤ 1071) then
    Char.ofNat (c.toNat + 32)
  else c

/-- Models Go's `strings.ToLower`. -/
def lowerStr (s : String) : String := ⟨s.data.map lowerChar⟩

/-- Models Go's `strings.EqualFold`: case-insensitive equality. -/
def eqFold (a b : String) : Bool := lowerStr a == lowerStr b

/-- Helper for substring containment: does `need` occur as a contiguous
sublist of the second argument? -/
def hasSubList (need : List Char) : List Char → Bool
  | [] => need.isEmpty
  | c :: t => need.isPrefixOf (c :: t) || hasSubList need t

/-- Models Go's `strings.Contains s sub`. -/
def containsSub (s sub : String) : Bool := hasSubList sub.data s.data

/-- Whitespace test, modelling `unicode.IsSpace` on the characters that can
occur in the program's line-edit inputs. -/
def isWS (c : Char) : Bool := c == ' ' || c == '\t' || c == '\n' || c == '\r'

/-- Models Go's `strings.TrimSpace`: drop whitespace from both ends. -/
def trimStr (s : String) : String :=
  ⟨((s.data.dropWhile isWS).reverse.dropWhile isWS).reverse⟩

/-- Splitting a character list at every comma, modelling Go's
`strings.Split s ","`. -/
def splitComma : List Char → List (List Char)
  | [] => [[]]
  | c :: t =>
    if c == ',' then [] :: splitComma t
    else match splitComma t with
      | [] => [[c]]
      | h :: r => (c :: h) :: r

/-- Models Go's byte-lexicographic `<` on strings via codepoints. -/
def lexLt : List Char → List Char → Bool
  | _, [] => false
  | [], _ :: _ => true
  | a :: as, b :: bs =>
    if a.toNat = b.toNat then lexLt as bs
    else decide (a.toNat < b.toNat)

/-- Go's `s < t` on strings. -/
def strLt (s t : String) : Bool := lexLt s.data t.data

/-! ## Data model (`main.go` lines 70–81, 275–277) -/

/-- The `Vacancy` struct of `main.go` (lines 70–81). -/
structure Vacancy where
  title : String
  company : String
  description : String
  keywords : List String
  sourceURL : String
  status : String
  experienceLevel : String
  notes : String
  resumePath : String
  resumeFileName : String
deriving DecidableEq

/-- `possibleStatuses` (line 275); the first entry is the default status. -/
def possibleStatuses : List String :=
  ["Новая", "Планирую откликнуться", "Откликнулся", "Тестовое задание",
   "Собеседование", "Оффер", "Отказ", "В архиве"]

/-- `possibleExperienceLevels` (line 276); the first entry is the default. -/
def possibleExperienceLevels : List String :=
  ["Не указан", "Без опыта", "Менее 1 года", "1-3 года", "3-6 лет", "Более 6 лет"]

/-- Keyword parsing shared by the add/edit dialog (lines 960–969) and the
details-panel save (lines 1254–1264): split the entered text on commas, trim
each piece, drop empty pieces; an input that is all whitespace yields no
keywords at all. -/
def parseKeywords (s : String) : List String :=
  if trimStr s == "" then []
  else ((splitComma s.data).map (fun p => trimStr ⟨p⟩)).filter (fun w => !(w == ""))

/-! ## Filter/Sort Engine -/

/-- The `matchField` closure inside `performSearch` (lines 761–767): exact
case-insensitive equality for the status/experience selectors, lower-cased
substring containment for everything else.  `searchTerm` has already been
lower-cased by the caller (line 752). -/
def matchField (searchInField searchTerm fieldValue : String) : Bool :=
  if searchInField == "По статусу" || searchInField == "По опыту" then
    eqFold fieldValue searchTerm
  else containsSub (lowerStr fieldValue) searchTerm

/-- The per-record `switch searchInField` of `performSearch`
(lines 769–804). -/
def matchVacancy (searchInField searchTerm : String) (v : Vacancy) : Bool :=
  if searchInField == "По названию" then matchField searchInField searchTerm v.title
  else if searchInField == "По компании" then matchField searchInField searchTerm v.company
  else if searchInField == "По описанию" then matchField searchInField searchTerm v.description
  else if searchInField == "По ключевым словам" then
    v.keywords.any (fun kw => containsSub (lowerStr kw) searchTerm)
  else if searchInField == "По статусу" then matchField searchInField searchTerm v.status
  else if searchInField == "По опыту" then matchField searchInField searchTerm v.experienceLevel
  else
    containsSub (lowerStr v.title) searchTerm ||
    containsSub (lowerStr v.company) searchTerm ||
    containsSub (lowerStr v.description) searchTerm ||
    containsSub (lowerStr v.status) searchTerm ||
    containsSub (lowerStr v.experienceLevel) searchTerm ||
    v.keywords.any (fun kw => containsSub (lowerStr kw) searchTerm)

/-- The filtering stage of `performSearch` (lines 744–811): lower-case the
raw query (line 752); an empty query with a free-text selector returns the
snapshot as is (line 755), otherwise keep exactly the matching records in
snapshot order.  The subsequent `Sort` call (line 813) is modelled
separately by `vacancySort`. -/
def performSearchFilter (searchInField rawTerm : String) (snapshot : List Vacancy) :
    List Vacancy :=
  let searchTerm := lowerStr rawTerm
  if searchTerm == "" && !(searchInField == "По опыту") && !(searchInField == "По статусу") then
    snapshot
  else snapshot.filter (fun v => matchVacancy searchInField searchTerm v)

/-- Sort order of `walk.SortOrder`. -/
inductive SortOrder where
  | ascending
  | descending
deriving DecidableEq

/-- The case-insensitive sort key selected by `(*VacancyModel).Less`
(lines 145–162): column 0 is the title, 1 the company, 2 the status, and
anything else falls back to the title. -/
def sortKey (col : Nat) (v : Vacancy) : String :=
  match col with
  | 0 => lowerStr v.title
  | 1 => lowerStr v.company
  | 2 => lowerStr v.status
  | _ => lowerStr v.title

/-- `(*VacancyModel).Less` (lines 145–162): strict byte-lexicographic
comparison of the lower-cased keys; descending returns the negation of the
ascending comparison. -/
def Less (col : Nat) (order : SortOrder) (a b : Vacancy) : Bool :=
  let less := strLt (sortKey col a) (sortKey col b)
  if order == SortOrder.descending then !less else less

/-- One bubbling insertion of `x` into the reversed already-sorted prefix
`r` (head of `r` is the rightmost element of the prefix): `x` moves left
past `y` exactly while `less x y`, precisely the inner loop of the
insertion sort that Go's `sort.SliceStable` runs. -/
def bubbleRev {α : Type} (less : α → α → Bool) (x : α) : List α → List α
  | [] => [x]
  | y :: ys => if less x y then y :: bubbleRev less x ys else x :: y :: ys

/-- Go's `sort.SliceStable` semantics for a `less` function: a left-to-right
insertion sort (Go runs exactly this insertion sort on slices of at most 20
elements and merges blocks stably for longer ones). -/
def sliceStable {α : Type} (less : α → α → Bool) (l : List α) : List α :=
  (l.foldl (fun acc x => bubbleRev less x acc) []).reverse

/-- `(*VacancyModel).Sort` (lines 135–142): `sort.SliceStable` with
`(*VacancyModel).Less` as the comparison. -/
def vacancySort (col : Nat) (order : SortOrder) (items : List Vacancy) : List Vacancy :=
  sliceStable (Less col order) items

/-! ## Record Store operations -/

/-- The case-insensitive identity key comparison used throughout dedup and
lookup: `strings.EqualFold` on title and on company. -/
def sameKey (a b : Vacancy) : Bool :=
  eqFold a.title b.title && eqFold a.company b.company

/-- `findVacancyIndexInAllExt` (lines 849–856): index of the first record
whose (title, company) matches case-insensitively, if any. -/
def findVacancyIndexInAllExt (t c : String) : List Vacancy → Option Nat
  | [] => none
  | v :: rest =>
    if eqFold v.title t && eqFold v.company c then some 0
    else (findVacancyIndexInAllExt t c rest).map (· + 1)

/-- The inner linear scan of the dedup loop (lines 1675–1680): is some
record of the snapshot case-insensitively equal to `v` in title and
company? -/
def existsLocally (snapshot : List Vacancy) (v : Vacancy) : Bool :=
  snapshot.any (fun localV => sameKey v localV)

/-- The store mutation performed by the accept button of
`showVacancyDialogExt` (lines 955–998): an empty title is rejected; the
edit path replaces the record found under the original (title, company);
the add path (also used for online results) rejects a record whose key is
already present and appends otherwise.  `isEdit` is the source's
`dlg.isEdit && !isOnlineSearch`. -/
def showVacancyDialogExt (isEdit : Bool) (origT origC : String)
    (store : List Vacancy) (saved : Vacancy) : List Vacancy :=
  if saved.title == "" then store
  else if isEdit then
    match findVacancyIndexInAllExt origT origC store with
    | some i => store.set i saved
    | none => store
  else
    match findVacancyIndexInAllExt saved.title saved.company store with
    | some _ => store
    | none => store ++ [saved]

/-- The editable fields of the details panel used by
`saveVacancyDetails`. -/
structure DetailsPanel where
  statusText : String
  experienceText : String
  keywordsText : String
  sourceURLText : String
  descriptionText : String
  notesText : String
deriving DecidableEq

/-- The field updates of `saveVacancyDetails` (lines 1240–1290): status,
experience, keywords (re-parsed), source URL, description and notes are
replaced; title and company are not editable in the panel. -/
def applyDetails (v : Vacancy) (p : DetailsPanel) : Vacancy :=
  { v with
    status := p.statusText
    experienceLevel := p.experienceText
    keywords := parseKeywords p.keywordsText
    sourceURL := p.sourceURLText
    description := p.descriptionText
    notes := p.notesText }

/-- `saveVacancyDetails` (lines 1209–1309) as a store transformation: the
record is located by an exact (case-sensitive) title+company scan
(lines 1222–1227) and, when found, replaced by its updated copy. -/
def saveVacancyDetails (store : List Vacancy) (viewT viewC : String)
    (p : DetailsPanel) : List Vacancy :=
  match (store.findIdx? (fun v => v.title == viewT && v.company == viewC)) with
  | none => store
  | some i =>
    match store.get? i with
    | some v => store.set i (applyDetails v p)
    | none => store

/-- `confirmDeleteVacancy` (lines 1018–1045): remove the record found by
`findVacancyIndexInAllExt`, if any. -/
def confirmDeleteVacancy (store : List Vacancy) (t c : String) : List Vacancy :=
  match findVacancyIndexInAllExt t c store with
  | some i => store.eraseIdx i
  | none => store

/-- The Record Store uniqueness invariant of the spec: no two records share
the case-insensitive (title, company) identity key. -/
def uniqueStore : List Vacancy → Bool
  | [] => true
  | v :: rest => !(existsLocally rest v) && uniqueStore rest

/-- The record a freshly accepted add/edit dialog constructs from its
widgets (lines 956–973): text fields are trimmed, keywords parsed. -/
def dialogSavedVacancy (titleTxt companyTxt descTxt keywordsTxt urlTxt
    statusSel expSel notesTxt : String) : Vacancy :=
  { title := trimStr titleTxt
    company := trimStr companyTxt
    description := trimStr descTxt
    keywords := parseKeywords keywordsTxt
    sourceURL := trimStr urlTxt
    status := statusSel
    experienceLevel := expSel
    notes := trimStr notesTxt
    resumePath := ""
    resumeFileName := "" }

/-! ## Online Search Client (`searchVacanciesJooble`, lines 1407–1518) -/

/-- The upstream `JoobleJob` wire shape (lines 1380–1391). -/
structure JoobleJob where
  title : String
  location : String
  snippet : String
  salary : String
  source : String
  jobType : String
  link : String
  company : String
  updated : String
deriving DecidableEq

/-- The record mapping of the success loop (lines 1505–1514): default
status, default experience level, empty keyword set, link as source URL,
snippet as description. -/
def joobleToVacancy (j : JoobleJob) : Vacancy :=
  { title := j.title
    company := j.company
    description := j.snippet
    keywords := []
    sourceURL := j.link
    status := possibleStatuses.headD ""
    experienceLevel := possibleExperienceLevels.headD ""
    notes := ""
    resumePath := ""
    resumeFileName := "" }

/-- The mapping loop over `joobleResp.Jobs` (lines 1493–1515), with the
per-job cancellation checkpoint (lines 1496–1500): `obs i` is what the
`select` on the cancel channel observes before job number `i` is
processed.  Jobs missing a title or a link are skipped. -/
def mapJoobleJobs (obs : Nat → Bool) : List JoobleJob → Nat → Except String (List Vacancy)
  | [], _ => Except.ok []
  | j :: rest, i =>
    if obs i then Except.error "поиск отменен пользователем во время обработки результатов"
    else
      match mapJoobleJobs obs rest (i + 1) with
      | Except.error e => Except.error e
      | Except.ok tail =>
        Except.ok (if j.title == "" || j.link == "" then tail else joobleToVacancy j :: tail)

/-- Classification of a failed `client.Do` (lines 1441–1452): the cancel
channel is consulted first, then the request context's error, and only
then is the transport error text propagated.  `chClosed` is what the
`select` on the cancel channel observes, `ctxCanceled` is
`ctx.Err() == context.Canceled`. -/
def classifyDoError (chClosed ctxCanceled : Bool) (errMsg : String) : String :=
  if chClosed then "поиск отменен пользователем (сигнал из UI)"
  else if ctxCanceled then "поиск отменен пользователем (контекст HTTP)"
  else "ошибка выполнения HTTP запроса: " ++ errMsg

/-- Is a client error message one of the two cancellation messages the
transport-failure branch can produce? -/
def isCancelMsg (e : String) : Bool :=
  e == "поиск отменен пользователем (сигнал из UI)" ||
  e == "поиск отменен пользователем (контекст HTTP)"

/-! ## Search Task Orchestrator
(the background goroutine of `switchToOnlineSearchMode`, lines 1621–1703) -/

/-- The terminal Search Outcome of one online search invocation. -/
inductive Outcome where
  | results (l : List Vacancy)
  | cancelled
  | failed (e : String)
deriving DecidableEq

/-- The dedup loop over the client's result list (lines 1664–1685), with
the per-record cancellation checkpoint (lines 1668–1674): `obs i` is what
the checkpoint before record number `i - 1` observes (`none` means the
loop exited through a checkpoint).  A record already present in the
snapshot is dropped, the rest keep their order. -/
def dedupGo (obs : Nat → Bool) (snapshot : List Vacancy) :
    List Vacancy → Nat → Option (List Vacancy)
  | [], _ => some []
  | v :: rest, i =>
    if obs i then none
    else
      match dedupGo obs snapshot rest (i + 1) with
      | none => none
      | some tail => some (if existsLocally snapshot v then tail else v :: tail)

/-- The background goroutine of `switchToOnlineSearchMode` (lines
1621–1703), from the moment `searchVacanciesJooble` has returned `res`.
`obs k` is what the `select` on the cancel channel observes at checkpoint
number `k`: checkpoint 0 is the select right after the call (line 1625),
checkpoints `1 … length` guard the dedup loop, and checkpoint `length + 1`
is the final select taken only when the deduplicated list is empty
(lines 1690–1698).  An error whose text contains "context canceled" is
reported as a cancellation (line 1654). -/
def backgroundTask (obs : Nat → Bool) (res : Except String (List Vacancy))
    (snapshot : List Vacancy) : Outcome :=
  if obs 0 then Outcome.cancelled
  else
    match res with
    | Except.error e =>
      if containsSub e "context canceled" then Outcome.cancelled else Outcome.failed e
    | Except.ok jooble =>
      match dedupGo obs snapshot jooble 1 with
      | none => Outcome.cancelled
      | some filtered =>
        if filtered.isEmpty then
          if obs (jooble.length + 1) then Outcome.cancelled else Outcome.results []
        else Outcome.results filtered

/-- The number of cancellation checkpoints a run of the background task
evaluates when none of them observes the signal closed: none after an
error, one per result record, plus the final empty-result select. -/
def checkpointCount (res : Except String (List Vacancy)) (snapshot : List Vacancy) : Nat :=
  match res with
  | Except.error _ => 0
  | Except.ok jooble =>
    jooble.length +
      (if (jooble.filter (fun v => !(existsLocally snapshot v))).isEmpty then 1 else 0)

/-! ## Cancellation Signal
(the guarded `close` of `switchToOnlineSearchMode`, lines 1581–1599) -/

/-- State of the cancel channel; `close` on an already-closed Go channel
panics. -/
inductive ChanState where
  | opened
  | closed
  | panicked
deriving DecidableEq

/-- Go's `close(ch)`. -/
def closeChan : ChanState → ChanState
  | ChanState.opened => ChanState.closed
  | ChanState.closed => ChanState.panicked
  | ChanState.panicked => ChanState.panicked

/-- One full, uninterrupted run of the guarded close
`select { case <-cancelChan: default: close(cancelChan) }`
(lines 1582–1586 and 1593–1597): receiving from a closed channel succeeds
immediately, so the close is skipped; otherwise the default branch
closes. -/
def guardedCancel : ChanState → ChanState
  | ChanState.closed => ChanState.closed
  | s => closeChan s

/-- State of two callers racing through the guarded close: the channel
plus what each caller's `select` observed (`none` until it ran). -/
structure RaceState where
  ch : ChanState
  saw1 : Option Bool
  saw2 : Option Bool
deriving DecidableEq

/-- The four atomic steps of two callers each executing the guarded close:
the `select` observation and the conditional `close` are separate steps
because Go evaluates them separately. -/
inductive RaceAction where
  | check1
  | close1
  | check2
  | close2
deriving DecidableEq

/-- Effect of one atomic step on the race state: a check records whether
the channel was closed; a close runs `close(ch)` only if that caller's
check had observed the channel still open. -/
def raceStep (s : RaceState) : RaceAction → RaceState
  | RaceAction.check1 => { s with saw1 := some (s.ch == ChanState.closed) }
  | RaceAction.close1 =>
    if s.saw1 == some false then { s with ch := closeChan s.ch } else s
  | RaceAction.check2 => { s with saw2 := some (s.ch == ChanState.closed) }
  | RaceAction.close2 =>
    if s.saw2 == some false then { s with ch := closeChan s.ch } else s

/-- Run an interleaving of the two callers from a fresh open channel. -/
def raceRun (actions : List RaceAction) : RaceState :=
  actions.foldl raceStep { ch := ChanState.opened, saw1 := none, saw2 := none }

/-! ### Basic lemmas about the string model -/

theorem toNat_ofNat_valid (n : Nat) (h : n.isValidChar) :
    (Char.ofNat n).toNat = n := by
  simp only [Char.ofNat, h, dite_true, Char.ofNatAux, Char.toNat, UInt32.toNat]
  simp [BitVec.toNat_ofNatLt]

theorem lowerChar_idem (c : Char) : lowerChar (lowerChar c) = lowerChar c := by
  unfold lowerChar
  split
  case isTrue h =>
    have hv : (c.toNat + 32).isValidChar := by
      rcases h with ⟨h1, h2⟩ | ⟨h1, h2⟩
      · exact Or.inl (by omega)
      · exact Or.inl (by omega)
    have ht : (Char.ofNat (c.toNat + 32)).toNat = c.toNat + 32 :=
      toNat_ofNat_valid _ hv
    have hneg : ¬ ((65 ≤ (Char.ofNat (c.toNat + 32)).toNat ∧
        (Char.ofNat (c.toNat + 32)).toNat ≤ 90) ∨
        (1040 ≤ (Char.ofNat (c.toNat + 32)).toNat ∧
        (Char.ofNat (c.toNat + 32)).toNat ≤ 1071)) := by
      rw [ht]
      rcases h with ⟨h1, h2⟩ | ⟨h1, h2⟩ <;> omega
    rw [if_neg hneg]
  case isFalse h =>
    rfl

theorem lowerStr_idem (s : String) : lowerStr (lowerStr s) = lowerStr s := by
  unfold lowerStr
  simp only [List.map_map]
  congr 1
  apply List.map_congr_left
  intro a _
  exact lowerChar_idem a

theorem eqFold_lower_right (a b : String) :
    eqFold a (lowerStr b) = eqFold a b := by
  unfold eqFold
  rw [lowerStr_idem]

theorem eqFold_symm (a b : String) : eqFold a b = eqFold b a := by
  unfold eqFold
  rw [Bool.eq_iff_iff, beq_iff_eq, beq_iff_eq]
  exact eq_comm

/-! ### Lexicographic order lemmas -/

theorem lexLt_irrefl (l : List Char) : lexLt l l = false := by
  induction l with
  | nil => rfl
  | cons a t ih => simp [lexLt, ih]

theorem lexLt_trans : ∀ a b c : List Char,
    lexLt a b = true → lexLt b c = true → lexLt a c = true := by
  intro a
  induction a with
  | nil =>
    intro b c hab hbc
    cases c with
    | nil => cases b <;> simp [lexLt] at hbc
    | cons c0 cs => simp [lexLt]
  | cons a0 as ih =>
    intro b c hab hbc
    cases b with
    | nil => simp [lexLt] at hab
    | cons b0 bs =>
      cases c with
      | nil => simp [lexLt] at hbc
      | cons c0 cs =>
        simp only [lexLt] at hab hbc ⊢
        by_cases h1 : a0.toNat = b0.toNat
        · rw [if_pos h1] at hab
          by_cases h2 : b0.toNat = c0.toNat
          · rw [if_pos h2] at hbc
            rw [if_pos (h1.trans h2)]
            exact ih bs cs hab hbc
          · rw [if_neg h2, decide_eq_true_iff] at hbc
            rw [if_neg (by omega), decide_eq_true_iff]
            omega
        · rw [if_neg h1, decide_eq_true_iff] at hab
          by_cases h2 : b0.toNat = c0.toNat
          · rw [if_neg (by omega), decide_eq_true_iff]
            omega
          · rw [if_neg h2, decide_eq_true_iff] at hbc
            rw [if_neg (by omega), decide_eq_true_iff]
            omega

theorem lexLt_connex : ∀ a b : List Char,
    lexLt a b = false → lexLt b a = false → a = b := by
  intro a
  induction a with
  | nil =>
    intro b hab _
    cases b with
    | nil => rfl
    | cons b0 bs => simp [lexLt] at hab
  | cons a0 as ih =>
    intro b hab hba
    cases b with
    | nil => simp [lexLt] at hba
    | cons b0 bs =>
      simp only [lexLt] at hab hba
      by_cases h : a0.toNat = b0.toNat
      · rw [if_pos h] at hab
        rw [if_pos h.symm] at hba
        have he : a0 = b0 := Char.ext (UInt32.toNat.inj h)
        rw [he, ih bs hab hba]
      · rw [if_neg h, decide_eq_false_iff_not] at hab
        rw [if_neg (fun hh => h hh.symm), decide_eq_false_iff_not] at hba
        omega

theorem lexLt_asymm (a b : List Char) (h : lexLt a b = true) :
    lexLt b a = false := by
  by_contra hc
  have hba : lexLt b a = true := by
    cases hh : lexLt b a
    · exact absurd hh hc
    · rfl
  have := lexLt_trans a b a h hba
  rw [lexLt_irrefl] at this
  exact absurd this (by simp)

theorem lexLt_of_lt_of_nlt (a b c : List Char)
    (h1 : lexLt a b = true) (h2 : lexLt c b = false) : lexLt a c = true := by
  cases hcb : lexLt b c
  · have := lexLt_connex b c hcb h2
    rw [← this]
    exact h1
  · exact lexLt_trans a b c h1 hcb

/-! ### takeWhile / dropWhile helpers -/

theorem takeWhile_append_all {α : Type} (p : α → Bool) (l₁ l₂ : List α)
    (h : ∀ a ∈ l₁, p a = true) :
    (l₁ ++ l₂).takeWhile p = l₁ ++ l₂.takeWhile p := by
  induction l₁ with
  | nil => simp
  | cons a t ih =>
    have ha := h a (List.mem_cons_self a t)
    rw [List.cons_append, List.takeWhile_cons, if_pos ha, List.cons_append,
      ih (fun b hb => h b (List.mem_cons_of_mem a hb))]

theorem dropWhile_append_all {α : Type} (p : α → Bool) (l₁ l₂ : List α)
    (h : ∀ a ∈ l₁, p a = true) :
    (l₁ ++ l₂).dropWhile p = l₂.dropWhile p := by
  induction l₁ with
  | nil => simp
  | cons a t ih =>
    have ha := h a (List.mem_cons_self a t)
    rw [List.cons_append, List.dropWhile_cons, if_pos ha]
    exact ih (fun b hb => h b (List.mem_cons_of_mem a hb))

theorem takeWhile_head_false {α : Type} (p : α → Bool) (l : List α)
    (h : ∀ a, l.head? = some a → p a = false) :
    l.takeWhile p = [] := by
  cases l with
  | nil => rfl
  | cons a t =>
    rw [List.takeWhile_cons, h a rfl]
    simp

theorem dropWhile_head_false {α : Type} (p : α → Bool) (l : List α)
    (h : ∀ a, l.head? = some a → p a = false) :
    l.dropWhile p = l := by
  cases l with
  | nil => rfl
  | cons a t =>
    simp only [List.dropWhile_cons, h a rfl, Bool.false_eq_true, if_false]

theorem head?_dropWhile_false {α : Type} (p : α → Bool) (l : List α) :
    ∀ a, (l.dropWhile p).head? = some a → p a = false := by
  induction l with
  | nil => intro a h; simp at h
  | cons b t ih =>
    intro a h
    by_cases hb : p b
    · rw [List.dropWhile_cons, if_pos hb] at h
      exact ih a h
    · rw [List.dropWhile_cons, if_neg hb] at h
      simp only [List.head?_cons, Option.some.injEq] at h
      rw [← h]
      exact Bool.of_not_eq_true hb

theorem mem_takeWhile_true {α : Type} (p : α → Bool) (l : List α) :
    ∀ a ∈ l.takeWhile p, p a = true := by
  induction l with
  | nil => intro a h; simp at h
  | cons b t ih =>
    intro a h
    by_cases hb : p b
    · rw [List.takeWhile_cons, if_pos hb] at h
      rcases List.mem_cons.mp h with h | h
      · rw [h]; exact hb
      · exact ih a h
    · rw [List.takeWhile_cons, if_neg hb] at h
      simp at h

theorem dropWhile_idem {α : Type} (p : α → Bool) (l : List α) :
    (l.dropWhile p).dropWhile p = l.dropWhile p :=
  dropWhile_head_false p _ (head?_dropWhile_false p l)

/-! ### Trim lemmas -/

theorem getLast?_dropWhile {α : Type} (p : α → Bool) (l : List α) :
    ∀ a, (l.dropWhile p).getLast? = some a → l.getLast? = some a := by
  induction l with
  | nil => intro a h; simp at h
  | cons c t ih =>
    intro a h
    by_cases hc : p c
    · rw [List.dropWhile_cons, if_pos hc] at h
      have ht := ih a h
      cases t with
      | nil => simp at ht
      | cons d td => rw [List.getLast?_cons_cons]; exact ht
    · rw [List.dropWhile_cons, if_neg hc] at h
      exact h

theorem head?_trim_false (s : String) :
    ∀ a, (trimStr s).data.head? = some a → isWS a = false := by
  intro a ha
  unfold trimStr at ha
  simp only at ha
  rw [List.head?_reverse] at ha
  have h2 := getLast?_dropWhile isWS _ a ha
  rw [List.getLast?_reverse] at h2
  exact head?_dropWhile_false isWS s.data a h2

theorem trimStr_idem (s : String) : trimStr (trimStr s) = trimStr s := by
  have h1 : (trimStr s).data.dropWhile isWS = (trimStr s).data :=
    dropWhile_head_false isWS _ (head?_trim_false s)
  show String.mk (((trimStr s).data.dropWhile isWS).reverse.dropWhile isWS).reverse = trimStr s
  rw [h1]
  show String.mk ((((s.data.dropWhile isWS).reverse.dropWhile isWS).reverse).reverse.dropWhile
    isWS).reverse = trimStr s
  rw [List.reverse_reverse, dropWhile_idem]
  rfl

/-! ## Lemmas about the filter engine -/

theorem matchVacancy_status (t : String) (v : Vacancy) :
    matchVacancy "По статусу" t v = (lowerStr v.status == lowerStr t) := rfl

theorem matchVacancy_experience (t : String) (v : Vacancy) :
    matchVacancy "По опыту" t v = (lowerStr v.experienceLevel == lowerStr t) := rfl

/-- Claim C6: with an empty query string and a free-text selector
("everywhere" or any of the four text fields), the filter returns the full
snapshot unchanged in both content and order. -/
theorem filter_empty_query_free_text (snapshot : List Vacancy) :
    performSearchFilter "Везде" "" snapshot = snapshot ∧
    performSearchFilter "По названию" "" snapshot = snapshot ∧
    performSearchFilter "По компании" "" snapshot = snapshot ∧
    performSearchFilter "По описанию" "" snapshot = snapshot ∧
    performSearchFilter "По ключевым словам" "" snapshot = snapshot :=
  ⟨rfl, rfl, rfl, rfl, rfl⟩

/-- Claim C5: the status selector and the experience selector always
filter, for every query value `S` (including the first enumerated value),
and keep exactly the records whose status (respectively experience level)
equals `S` case-insensitively — equality, not substring containment. -/
theorem filter_status_experience_exact (snapshot : List Vacancy) (S : String) :
    performSearchFilter "По статусу" S snapshot =
      snapshot.filter (fun v => lowerStr v.status == lowerStr S) ∧
    performSearchFilter "По опыту" S snapshot =
      snapshot.filter (fun v => lowerStr v.experienceLevel == lowerStr S) := by
  constructor
  · show (if ((lowerStr S == "") && !("По статусу" == "По опыту") &&
        !(("По статусу" : String) == "По статусу")) = true then snapshot
      else snapshot.filter (fun v => matchVacancy "По статусу" (lowerStr S) v)) = _
    rw [show (("По статусу" : String) == "По статусу") = true from rfl]
    simp only [Bool.not_true, Bool.and_false, Bool.false_eq_true, if_false]
    apply List.filter_congr
    intro v _
    rw [matchVacancy_status, lowerStr_idem]
  · show (if ((lowerStr S == "") && !(("По опыту" : String) == "По опыту") &&
        !(("По опыту" : String) == "По статусу")) = true then snapshot
      else snapshot.filter (fun v => matchVacancy "По опыту" (lowerStr S) v)) = _
    rw [show (("По опыту" : String) == "По опыту") = true from rfl]
    simp only [Bool.not_true, Bool.and_false, Bool.false_and, Bool.false_eq_true, if_false]
    apply List.filter_congr
    intro v _
    rw [matchVacancy_experience, lowerStr_idem]

/-! ## Lemmas about the Online Search Client mapping -/

theorem mapJoobleJobs_no_cancel (jobs : List JoobleJob) :
    ∀ i : Nat, mapJoobleJobs (fun _ => false) jobs i =
      Except.ok ((jobs.filter (fun j => !(j.title == "" || j.link == ""))).map
        joobleToVacancy) := by
  induction jobs with
  | nil => intro i; rfl
  | cons j rest ih =>
    intro i
    rw [mapJoobleJobs, ih (i + 1), List.filter_cons]
    by_cases h : (j.title == "" || j.link == "") = true
    · rw [h]; rfl
    · rw [Bool.not_eq_true] at h
      rw [h]; rfl

/-- Claim C8: on a successful upstream response the mapping skips exactly
the job entries whose title or link is empty, and every mapped record gets
the default status (the first enumerated status, "Новая"), the default
experience level (the first enumerated level, "Не указан"), an empty
keyword set, the job's link as source URL, the job's snippet as
description, and the job's company. -/
theorem joobleMapping_spec (jobs : List JoobleJob) :
    mapJoobleJobs (fun _ => false) jobs 0 =
      Except.ok ((jobs.filter (fun j => !(j.title == "" || j.link == ""))).map
        joobleToVacancy) ∧
    possibleStatuses.headD "" = "Новая" ∧
    possibleExperienceLevels.headD "" = "Не указан" ∧
    ∀ j : JoobleJob,
      (joobleToVacancy j).status = "Новая" ∧
      (joobleToVacancy j).experienceLevel = "Не указан" ∧
      (joobleToVacancy j).keywords = [] ∧
      (joobleToVacancy j).sourceURL = j.link ∧
      (joobleToVacancy j).description = j.snippet ∧
      (joobleToVacancy j).company = j.company ∧
      (joobleToVacancy j).title = j.title :=
  ⟨mapJoobleJobs_no_cancel jobs 0, rfl, rfl,
   fun _ => ⟨rfl, rfl, rfl, rfl, rfl, rfl, rfl⟩⟩

/-! ## Lemmas about the orchestrator's dedup stage -/

theorem dedupGo_no_cancel (snapshot : List Vacancy) (l : List Vacancy) :
    ∀ i : Nat, dedupGo (fun _ => false) snapshot l i =
      some (l.filter (fun v => !(existsLocally snapshot v))) := by
  induction l with
  | nil => intro i; rfl
  | cons v rest ih =>
    intro i
    rw [dedupGo, ih (i + 1)]
    by_cases h : existsLocally snapshot v = true
    · simp [List.filter_cons, h]
    · simp [List.filter_cons, h]

/-- Claim C3: with no cancellation, the orchestrator drops exactly the
client records whose case-insensitive (title, company) key matches some
record of the Record Store snapshot, and delivers the remaining records as
Results in the order the client returned them. -/
theorem dedup_results_spec (snapshot jooble : List Vacancy) :
    backgroundTask (fun _ => false) (Except.ok jooble) snapshot =
      Outcome.results (jooble.filter (fun v => !(existsLocally snapshot v))) := by
  show (match dedupGo (fun _ => false) snapshot jooble 1 with
    | none => Outcome.cancelled
    | some filtered =>
      if filtered.isEmpty then
        if (fun _ => false) (jooble.length + 1) = true then Outcome.cancelled
        else Outcome.results []
      else Outcome.results filtered) = _
  rw [dedupGo_no_cancel snapshot jooble 1]
  cases hf : jooble.filter (fun v => !(existsLocally snapshot v)) with
  | nil => rfl
  | cons a t => rfl

/-! ## Cancellation always wins (claim C1) -/

theorem dedupGo_none_of_obs (obs : Nat → Bool) (snapshot : List Vacancy) :
    ∀ (l : List Vacancy) (i k : Nat), i ≤ k → k < i + l.length → obs k = true →
      dedupGo obs snapshot l i = none := by
  intro l
  induction l with
  | nil =>
    intro i k h1 h2 _
    simp only [List.length_nil, Nat.add_zero] at h2
    omega
  | cons v rest ih =>
    intro i k h1 h2 hk
    rw [dedupGo]
    by_cases hi : obs i = true
    · rw [if_pos hi]
    · rw [if_neg hi]
      have hik : i + 1 ≤ k := by
        rcases Nat.eq_or_lt_of_le h1 with he | hl
        · exact absurd (he ▸ hk) hi
        · omega
      have hlt : k < (i + 1) + rest.length := by
        simp only [List.length_cons] at h2
        omega
      rw [ih (i + 1) k hik hlt hk]

theorem dedupGo_some_eq (obs : Nat → Bool) (snapshot : List Vacancy) :
    ∀ (l : List Vacancy) (i : Nat) (f : List Vacancy),
      dedupGo obs snapshot l i = some f →
      f = l.filter (fun v => !(existsLocally snapshot v)) := by
  intro l
  induction l with
  | nil =>
    intro i f h
    rw [dedupGo] at h
    cases h
    rfl
  | cons v rest ih =>
    intro i f h
    rw [dedupGo] at h
    by_cases hi : obs i = true
    · rw [if_pos hi] at h; cases h
    · rw [if_neg hi] at h
      cases hrec : dedupGo obs snapshot rest (i + 1) with
      | none => rw [hrec] at h; cases h
      | some tail =>
        rw [hrec] at h
        have htail := ih (i + 1) tail hrec
        simp only [Option.some.injEq] at h
        rw [← h, htail, List.filter_cons]
        by_cases hv : existsLocally snapshot v = true
        · rw [hv]; rfl
        · rw [Bool.not_eq_true] at hv
          rw [hv]; rfl

/-- Claim C1: if the cancel channel is observed closed at any checkpoint
the background task evaluates (checkpoint 0 right after the network call
returns, one checkpoint per record during dedup, and the final
empty-result checkpoint), the delivered outcome is Cancelled — no matter
whether the network call returned a result list or an error.  No
monotonicity of `obs` is needed, so the theorem in particular covers every
run of the real program, where a closed channel stays closed. -/
theorem cancellation_wins (obs : Nat → Bool) (res : Except String (List Vacancy))
    (snapshot : List Vacancy) (k : Nat)
    (hk : k ≤ checkpointCount res snapshot) (hobs : obs k = true) :
    backgroundTask obs res snapshot = Outcome.cancelled := by
  by_cases h0 : obs 0 = true
  · rw [backgroundTask.eq_def, if_pos h0]
  · have hk1 : 1 ≤ k := by
      rcases Nat.eq_zero_or_pos k with rfl | h
      · exact absurd hobs h0
      · exact h
    rw [backgroundTask.eq_def, if_neg h0]
    cases res with
    | error e =>
      exfalso
      simp only [checkpointCount] at hk
      omega
    | ok jooble =>
      simp only [checkpointCount] at hk
      show (match dedupGo obs snapshot jooble 1 with
        | none => Outcome.cancelled
        | some filtered =>
          if filtered.isEmpty = true then
            if obs (jooble.length + 1) = true then Outcome.cancelled
            else Outcome.results []
          else Outcome.results filtered) = Outcome.cancelled
      by_cases hlen : k ≤ jooble.length
      · rw [dedupGo_none_of_obs obs snapshot jooble 1 k hk1 (by omega) hobs]
      · -- k exceeds the per-record checkpoints: the final checkpoint, taken
        -- only when the dedup result is empty
        have hemp : (jooble.filter (fun v => !(existsLocally snapshot v))).isEmpty = true := by
          by_cases he : (jooble.filter (fun v => !(existsLocally snapshot v))).isEmpty = true
          · exact he
          · exfalso
            rw [if_neg he] at hk
            omega
        rw [if_pos hemp] at hk
        have hkeq : k = jooble.length + 1 := by omega
        cases hdg : dedupGo obs snapshot jooble 1 with
        | none => rfl
        | some f =>
          have hf := dedupGo_some_eq obs snapshot jooble 1 f hdg
          have hfe : f.isEmpty = true := by rw [hf]; exact hemp
          show (if f.isEmpty = true then
              if obs (jooble.length + 1) = true then Outcome.cancelled
              else Outcome.results []
            else Outcome.results f) = Outcome.cancelled
          rw [if_pos hfe, if_pos (hkeq ▸ hobs)]

/-- Sample record used to instantiate hypotheses of universally quantified
theorems at concrete inputs. -/
def sampleVacancy : Vacancy :=
  { title := "Go Dev"
    company := "Acme"
    description := "backend"
    keywords := ["go"]
    sourceURL := "https://example.com/1"
    status := "Новая"
    experienceLevel := "Не указан"
    notes := ""
    resumePath := ""
    resumeFileName := "" }

/-- Witness for claim C1: a concrete run whose cancel channel is closed
from the start and whose network call nevertheless succeeded with one
record ends in the Cancelled outcome. -/
theorem cancellation_wins_witness :
    backgroundTask (fun _ => true) (Except.ok [sampleVacancy]) [] = Outcome.cancelled :=
  cancellation_wins (fun _ => true) (Except.ok [sampleVacancy]) [] 1
    (by decide) rfl

/-! ## Keyword hygiene (claim C10) -/

theorem dropWhile_all {α : Type} (p : α → Bool) (l : List α)
    (h : ∀ a ∈ l, p a = true) : l.dropWhile p = [] := by
  induction l with
  | nil => rfl
  | cons a t ih =>
    rw [List.dropWhile_cons, if_pos (h a (List.mem_cons_self a t))]
    exact ih fun b hb => h b (List.mem_cons_of_mem a hb)

theorem trimStr_all_ws (p : List Char) (h : ∀ c ∈ p, isWS c = true) :
    trimStr ⟨p⟩ = "" := by
  show String.mk ((((⟨p⟩ : String).data.dropWhile isWS).reverse.dropWhile isWS).reverse) = ""
  rw [show (⟨p⟩ : String).data = p from rfl, dropWhile_all isWS p h]
  rfl

theorem splitComma_ws : ∀ l : List Char, (∀ c ∈ l, c = ',' ∨ isWS c = true) →
    ∀ p ∈ splitComma l, ∀ c ∈ p, isWS c = true := by
  intro l
  induction l with
  | nil =>
    intro _ p hp c hc
    simp only [splitComma, List.mem_singleton] at hp
    subst hp
    simp at hc
  | cons a t ih =>
    intro h p hp c hc
    have hT : ∀ c ∈ t, c = ',' ∨ isWS c = true :=
      fun c hc => h c (List.mem_cons_of_mem a hc)
    rw [splitComma] at hp
    by_cases ha : (a == ',') = true
    · rw [if_pos ha] at hp
      rcases List.mem_cons.mp hp with rfl | hp
      · simp at hc
      · exact ih hT p hp c hc
    · rw [if_neg ha] at hp
      have haw : isWS a = true := by
        rcases h a (List.mem_cons_self a t) with he | hw
        · exact absurd (beq_iff_eq.mpr he) ha
        · exact hw
      cases hs : splitComma t with
      | nil =>
        rw [hs] at hp
        simp only [List.mem_singleton] at hp
        subst hp
        rcases List.mem_cons.mp hc with rfl | hc
        · exact haw
        · simp at hc
      | cons h0 r =>
        rw [hs] at hp
        rcases List.mem_cons.mp hp with rfl | hp
        · rcases List.mem_cons.mp hc with rfl | hc
          · exact haw
          · exact ih hT h0 (by rw [hs]; exact List.mem_cons_self h0 r) c hc
        · exact ih hT p (by rw [hs]; exact List.mem_cons_of_mem h0 hp) c hc

/-- Claim C10: every keyword stored on a record through the add/edit
dialog or the details-panel save is non-empty and already trimmed (so has
no leading or trailing whitespace), and an input consisting only of commas
and whitespace yields an empty keyword set.  The second and third
conjuncts tie the shared `parseKeywords` to the two code sites. -/
theorem keywords_trimmed_nonempty (s : String) (v : Vacancy) (p : DetailsPanel)
    (t1 t2 t3 t5 t6 t7 t8 : String) :
    (∀ w ∈ parseKeywords s, ¬(w = "") ∧ trimStr w = w) ∧
    (dialogSavedVacancy t1 t2 t3 s t5 t6 t7 t8).keywords = parseKeywords s ∧
    (applyDetails v p).keywords = parseKeywords p.keywordsText ∧
    ((∀ c ∈ s.data, c = ',' ∨ isWS c = true) → parseKeywords s = []) := by
  refine ⟨?_, rfl, rfl, ?_⟩
  · intro w hw
    rw [parseKeywords] at hw
    by_cases ht : (trimStr s == "") = true
    · rw [if_pos ht] at hw
      simp at hw
    · rw [if_neg ht] at hw
      rcases List.mem_filter.mp hw with ⟨hmem, hne⟩
      rcases List.mem_map.mp hmem with ⟨piece, _, rfl⟩
      constructor
      · intro he
        rw [he] at hne
        simp at hne
      · exact trimStr_idem ⟨piece⟩
  · intro hall
    rw [parseKeywords]
    by_cases ht : (trimStr s == "") = true
    · rw [if_pos ht]
    · rw [if_neg ht]
      rw [List.filter_eq_nil_iff]
      intro w hwmem
      rcases List.mem_map.mp hwmem with ⟨piece, hpiece, rfl⟩
      have hws := splitComma_ws s.data hall piece hpiece
      rw [trimStr_all_ws piece hws]
      simp

/-- The details panel contents used to instantiate witnesses. -/
def samplePanel : DetailsPanel :=
  { statusText := "Оффер"
    experienceText := "1-3 года"
    keywordsText := " go , backend "
    sourceURLText := "https://example.com/2"
    descriptionText := "d"
    notesText := "n" }

/-- Witness for claim C10 at concrete inputs: the parsed keyword "a-b" of
the entry " a-b , c " is non-empty and trimmed, and an input of only
commas and spaces parses to the empty keyword set. -/
theorem keywords_trimmed_nonempty_witness :
    (¬("a-b" = "") ∧ trimStr "a-b" = "a-b") ∧ parseKeywords " ,  ,, " = [] :=
  ⟨(keywords_trimmed_nonempty " a-b , c " sampleVacancy samplePanel
      "" "" "" "" "" "" "").1 "a-b" (by decide),
   (keywords_trimmed_nonempty " ,  ,, " sampleVacancy samplePanel
      "" "" "" "" "" "" "").2.2.2 (by decide)⟩


/-! ## Record Store uniqueness (claim C2) -/

theorem sameKey_symm (a b : Vacancy) : sameKey a b = sameKey b a := by
  unfold sameKey
  rw [eqFold_symm a.title b.title, eqFold_symm a.company b.company]

theorem findVacancyIndexInAllExt_none (t c : String) :
    ∀ l : List Vacancy, findVacancyIndexInAllExt t c l = none →
      ∀ v ∈ l, (eqFold v.title t && eqFold v.company c) = false := by
  intro l
  induction l with
  | nil => intro _ v hv; simp at hv
  | cons a rest ih =>
    intro h v hv
    rw [findVacancyIndexInAllExt] at h
    by_cases ha : (eqFold a.title t && eqFold a.company c) = true
    · rw [if_pos ha] at h; cases h
    · rw [if_neg ha] at h
      rcases List.mem_cons.mp hv with rfl | hv
      · exact Bool.of_not_eq_true ha
      · apply ih _ v hv
        cases hrec : findVacancyIndexInAllExt t c rest with
        | none => rfl
        | some j => rw [hrec] at h; cases h

theorem existsLocally_eraseIdx_le (l : List Vacancy) (i : Nat) (v : Vacancy)
    (h : existsLocally l v = false) : existsLocally (l.eraseIdx i) v = false := by
  cases hx : existsLocally (l.eraseIdx i) v
  · rfl
  · exfalso
    have hx' : (l.eraseIdx i).any (fun localV => sameKey v localV) = true := hx
    rcases List.any_eq_true.mp hx' with ⟨a, ha, hk⟩
    have hmem : a ∈ l := (List.eraseIdx_sublist l i).mem ha
    have hl : l.any (fun localV => sameKey v localV) = true :=
      List.any_eq_true.mpr ⟨a, hmem, hk⟩
    have : existsLocally l v = true := hl
    rw [h] at this
    cases this

theorem uniqueStore_eraseIdx : ∀ (l : List Vacancy) (i : Nat),
    uniqueStore l = true → uniqueStore (l.eraseIdx i) = true := by
  intro l
  induction l with
  | nil => intro i _; rfl
  | cons a t ih =>
    intro i h
    rw [uniqueStore, Bool.and_eq_true, Bool.not_eq_true'] at h
    rcases h with ⟨h1, h2⟩
    cases i with
    | zero => exact h2
    | succ i =>
      show uniqueStore (a :: t.eraseIdx i) = true
      rw [uniqueStore, Bool.and_eq_true, Bool.not_eq_true']
      exact ⟨existsLocally_eraseIdx_le t i a h1, ih i h2⟩

theorem existsLocally_set_false : ∀ (t : List Vacancy) (i : Nat) (v' a : Vacancy),
    existsLocally t a = false → sameKey a v' = false →
    existsLocally (t.set i v') a = false := by
  intro t
  induction t with
  | nil => intro i v' a _ _; rfl
  | cons b tb ih =>
    intro i v' a h hk
    have h' : sameKey a b = false ∧ existsLocally tb a = false := by
      rw [show existsLocally (b :: tb) a = (sameKey a b || existsLocally tb a) from rfl,
        Bool.or_eq_false_iff] at h
      exact h
    cases i with
    | zero =>
      show existsLocally (v' :: tb) a = false
      rw [show existsLocally (v' :: tb) a = (sameKey a v' || existsLocally tb a) from rfl,
        Bool.or_eq_false_iff]
      exact ⟨hk, h'.2⟩
    | succ i =>
      show existsLocally (b :: tb.set i v') a = false
      rw [show existsLocally (b :: tb.set i v') a =
          (sameKey a b || existsLocally (tb.set i v') a) from rfl,
        Bool.or_eq_false_iff]
      exact ⟨h'.1, ih i v' a h'.2 hk⟩

theorem uniqueStore_set : ∀ (l : List Vacancy) (i : Nat) (v' : Vacancy),
    uniqueStore l = true → existsLocally (l.eraseIdx i) v' = false →
    uniqueStore (l.set i v') = true := by
  intro l
  induction l with
  | nil => intro i v' _ _; rfl
  | cons a t ih =>
    intro i v' h hv
    rw [uniqueStore, Bool.and_eq_true, Bool.not_eq_true'] at h
    rcases h with ⟨h1, h2⟩
    cases i with
    | zero =>
      show uniqueStore (v' :: t) = true
      rw [uniqueStore, Bool.and_eq_true, Bool.not_eq_true']
      exact ⟨hv, h2⟩
    | succ i =>
      show uniqueStore (a :: t.set i v') = true
      rw [uniqueStore, Bool.and_eq_true, Bool.not_eq_true']
      have hv' : sameKey v' a = false ∧ existsLocally (t.eraseIdx i) v' = false := by
        have hv2 : (sameKey v' a || existsLocally (t.eraseIdx i) v') = false := hv
        rw [Bool.or_eq_false_iff] at hv2
        exact hv2
      constructor
      · apply existsLocally_set_false t i v' a h1
        rw [sameKey_symm]
        exact hv'.1
      · exact ih i v' h2 hv'.2

theorem existsLocally_set_samekey : ∀ (t : List Vacancy) (i : Nat) (v v' a : Vacancy),
    t.get? i = some v → v'.title = v.title → v'.company = v.company →
    existsLocally (t.set i v') a = existsLocally t a := by
  intro t
  induction t with
  | nil => intro i v v' a h _ _; cases h
  | cons b tb ih =>
    intro i v v' a h ht hc
    cases i with
    | zero =>
      have hb : b = v := Option.some.inj h
      show existsLocally (v' :: tb) a = existsLocally (b :: tb) a
      rw [show existsLocally (v' :: tb) a = (sameKey a v' || existsLocally tb a) from rfl,
        show existsLocally (b :: tb) a = (sameKey a b || existsLocally tb a) from rfl]
      have hkey : sameKey a v' = sameKey a b := by
        unfold sameKey
        rw [ht, hc, ← hb]
      rw [hkey]
    | succ i =>
      show existsLocally (b :: tb.set i v') a = existsLocally (b :: tb) a
      rw [show existsLocally (b :: tb.set i v') a =
          (sameKey a b || existsLocally (tb.set i v') a) from rfl,
        show existsLocally (b :: tb) a = (sameKey a b || existsLocally tb a) from rfl,
        ih i v v' a (by exact h) ht hc]

theorem uniqueStore_set_samekey : ∀ (l : List Vacancy) (i : Nat) (v v' : Vacancy),
    l.get? i = some v → v'.title = v.title → v'.company = v.company →
    uniqueStore l = true → uniqueStore (l.set i v') = true := by
  intro l
  induction l with
  | nil => intro i v v' h _ _ _; cases h
  | cons b tb ih =>
    intro i v v' h ht hc hu
    rw [uniqueStore, Bool.and_eq_true, Bool.not_eq_true'] at hu
    rcases hu with ⟨h1, h2⟩
    cases i with
    | zero =>
      have hb : b = v := Option.some.inj h
      show uniqueStore (v' :: tb) = true
      rw [uniqueStore, Bool.and_eq_true, Bool.not_eq_true']
      constructor
      · have hfun : (fun localV => sameKey v' localV) = (fun localV => sameKey b localV) := by
          funext x
          unfold sameKey
          rw [ht, hc, ← hb]
        show tb.any (fun localV => sameKey v' localV) = false
        rw [hfun]
        exact h1
      · exact h2
    | succ i =>
      show uniqueStore (b :: tb.set i v') = true
      rw [uniqueStore, Bool.and_eq_true, Bool.not_eq_true']
      constructor
      · rw [show existsLocally (tb.set i v') b = (tb.set i v').any (fun localV => sameKey b localV) from rfl]
        rw [show ((tb.set i v').any (fun localV => sameKey b localV)) = existsLocally (tb.set i v') b from rfl]
        rw [existsLocally_set_samekey tb i v v' b (by exact h) ht hc]
        exact h1
      · exact ih i v v' (by exact h) ht hc h2

theorem uniqueStore_append : ∀ (l : List Vacancy) (x : Vacancy),
    uniqueStore l = true → (∀ v ∈ l, sameKey v x = false) →
    uniqueStore (l ++ [x]) = true := by
  intro l
  induction l with
  | nil => intro x _ _; rfl
  | cons a t ih =>
    intro x hu hk
    rw [uniqueStore, Bool.and_eq_true, Bool.not_eq_true'] at hu
    rcases hu with ⟨h1, h2⟩
    show uniqueStore (a :: (t ++ [x])) = true
    rw [uniqueStore, Bool.and_eq_true, Bool.not_eq_true']
    constructor
    · have happ : existsLocally (t ++ [x]) a = (existsLocally t a || sameKey a x) := by
        show (t ++ [x]).any (fun localV => sameKey a localV) = _
        rw [List.any_append]
        show (existsLocally t a || (sameKey a x || false)) = _
        rw [Bool.or_false]
      rw [happ, Bool.or_eq_false_iff]
      refine ⟨h1, ?_⟩
      exact hk a (List.mem_cons_self a t)
    · exact ih x h2 (fun v hv => hk v (List.mem_cons_of_mem a hv))

/-- Record with key ("Alpha", "Xco"). -/
def vacA : Vacancy :=
  { title := "Alpha", company := "Xco", description := "", keywords := [],
    sourceURL := "", status := "Новая", experienceLevel := "Не указан",
    notes := "", resumePath := "", resumeFileName := "" }

/-- Record with key ("Beta", "Yco"). -/
def vacB : Vacancy :=
  { vacA with title := "Beta", company := "Yco" }

/-- The result of editing `vacA` so that its key collides with `vacB`. -/
def vacA' : Vacancy :=
  { vacA with title := "beta", company := "YCO", notes := "edited" }

/-- Record with key ("Gamma", "Zco"). -/
def vacC : Vacancy :=
  { vacA with title := "Gamma", company := "Zco" }

/-- Counterexample to claim C2: the edit path of the dialog performs no
duplicate check, so editing the record ("Alpha","Xco") of the two-record
unique store [vacA, vacB] into a record whose case-insensitive key equals
vacB's leaves the store with two records sharing the ("beta","yco")
identity key. -/
theorem uniqueness_edit_counterexample :
    uniqueStore [vacA, vacB] = true ∧
    showVacancyDialogExt true "Alpha" "Xco" [vacA, vacB] vacA' = [vacA', vacB] ∧
    uniqueStore (showVacancyDialogExt true "Alpha" "Xco" [vacA, vacB] vacA') = false :=
  ⟨by decide, by decide, by decide⟩

/-- Claim C2 amended: the uniqueness invariant is preserved by the add
path of the dialog, by the details-panel save and by delete; the edit path
preserves it only under the additional hypothesis that the edited record's
new identity key does not collide with any other record of the store
(without that hypothesis the edit path violates the invariant, see the
counterexample). -/
theorem uniqueness_invariant_amended :
    (∀ (store : List Vacancy) (t c : String) (saved : Vacancy),
       uniqueStore store = true →
       uniqueStore (showVacancyDialogExt false t c store saved) = true) ∧
    (∀ (store : List Vacancy) (t c : String) (saved : Vacancy) (i : Nat),
       uniqueStore store = true →
       findVacancyIndexInAllExt t c store = some i →
       existsLocally (store.eraseIdx i) saved = false →
       uniqueStore (showVacancyDialogExt true t c store saved) = true) ∧
    (∀ (store : List Vacancy) (t c : String) (p : DetailsPanel),
       uniqueStore store = true →
       uniqueStore (saveVacancyDetails store t c p) = true) ∧
    (∀ (store : List Vacancy) (t c : String),
       uniqueStore store = true →
       uniqueStore (confirmDeleteVacancy store t c) = true) := by
  refine ⟨?_, ?_, ?_, ?_⟩
  · intro store t c saved hu
    show uniqueStore (if (saved.title == "") = true then store
      else match findVacancyIndexInAllExt saved.title saved.company store with
        | some _ => store
        | none => store ++ [saved]) = true
    by_cases he : (saved.title == "") = true
    · rw [if_pos he]; exact hu
    · rw [if_neg he]
      cases hf : findVacancyIndexInAllExt saved.title saved.company store with
      | some j => exact hu
      | none =>
        apply uniqueStore_append store saved hu
        intro v hv
        exact findVacancyIndexInAllExt_none saved.title saved.company store hf v hv
  · intro store t c saved i hu hf hex
    show uniqueStore (if (saved.title == "") = true then store
      else match findVacancyIndexInAllExt t c store with
        | some i => store.set i saved
        | none => store) = true
    by_cases he : (saved.title == "") = true
    · rw [if_pos he]; exact hu
    · rw [if_neg he, hf]
      exact uniqueStore_set store i saved hu hex
  · intro store t c p hu
    rw [saveVacancyDetails]
    cases hf : store.findIdx? (fun v => v.title == t && v.company == c) with
    | none => exact hu
    | some i =>
      show uniqueStore (match store.get? i with
        | some v => store.set i (applyDetails v p)
        | none => store) = true
      cases hg : store.get? i with
      | none => exact hu
      | some v => exact uniqueStore_set_samekey store i v (applyDetails v p) hg rfl rfl hu
  · intro store t c hu
    rw [confirmDeleteVacancy]
    cases hf : findVacancyIndexInAllExt t c store with
    | none => exact hu
    | some i => exact uniqueStore_eraseIdx store i hu

/-- Witness for the amended claim C2 at concrete stores: an add, a
non-colliding edit, a details save and a delete each leave a concrete
unique store unique. -/
theorem uniqueness_invariant_amended_witness :
    uniqueStore (showVacancyDialogExt false "" "" [vacA] vacB) = true ∧
    uniqueStore (showVacancyDialogExt true "Alpha" "Xco" [vacA, vacB] vacC) = true ∧
    uniqueStore (saveVacancyDetails [vacA] "Alpha" "Xco" samplePanel) = true ∧
    uniqueStore (confirmDeleteVacancy [vacA, vacB] "Alpha" "Xco") = true :=
  ⟨uniqueness_invariant_amended.1 [vacA] "" "" vacB (by decide),
   uniqueness_invariant_amended.2.1 [vacA, vacB] "Alpha" "Xco" vacC 0
     (by decide) (by decide) (by decide),
   uniqueness_invariant_amended.2.2.1 [vacA] "Alpha" "Xco" samplePanel (by decide),
   uniqueness_invariant_amended.2.2.2 [vacA, vacB] "Alpha" "Xco" (by decide)⟩


/-! ## Idempotent cancellation (claim C4) -/

/-- Counterexample to claim C4: the guarded close
`select { case <-cancelChan: default: close(cancelChan) }` is a
non-atomic check-then-close, so two truly concurrent callers can both run
their `select` while the channel is still open; both then execute
`close(cancelChan)`, and the second close of an already-closed Go channel
panics.  The interleaving check1, check2, close1, close2 from a fresh
open channel ends with the channel in the panicked state, refuting safety
for two concurrent callers. -/
theorem cancel_idempotent_counterexample :
    raceRun [RaceAction.check1, RaceAction.check2, RaceAction.close1, RaceAction.close2] =
      { ch := ChanState.panicked, saw1 := some false, saw2 := some false } := by
  decide

/-- Claim C4 amended: invoking the guarded cancel action twice on the same
signal never errors or panics and leaves the signal closed, provided the
two invocations do not interleave (in the program both triggers run on the
single UI thread, so they are serialized); under the serialized
interleaving the second caller's select observes the channel closed.  The
check-then-close is not atomic, so genuinely concurrent interleavings can
panic (see the counterexample). -/
theorem cancel_idempotent_amended :
    (∀ s : ChanState, ¬(s = ChanState.panicked) →
       guardedCancel s = ChanState.closed ∧
       guardedCancel (guardedCancel s) = ChanState.closed) ∧
    raceRun [RaceAction.check1, RaceAction.close1, RaceAction.check2, RaceAction.close2] =
      { ch := ChanState.closed, saw1 := some false, saw2 := some true } := by
  constructor
  · intro s hs
    cases s
    · exact ⟨rfl, rfl⟩
    · exact ⟨rfl, rfl⟩
    · exact absurd rfl hs
  · decide

/-- Witness for the amended claim C4: from a fresh open channel a guarded
cancel closes the signal and a second guarded cancel leaves it closed. -/
theorem cancel_idempotent_amended_witness :
    guardedCancel ChanState.opened = ChanState.closed ∧
    guardedCancel (guardedCancel ChanState.opened) = ChanState.closed :=
  cancel_idempotent_amended.1 ChanState.opened (by decide)

/-! ## Cancellation detection and error text (claim C9) -/

/-- Counterexample to claim C9: the orchestrator's error handler
(line 1654) classifies a transport failure by substring-matching
"context canceled" in the error text.  Two runs with the identical
cancellation state (the cancel channel is never closed) produce different
outcomes purely because of the error message text, so the pipeline does
string-match the error message. -/
theorem cancellation_detection_counterexample :
    backgroundTask (fun _ => false)
      (Except.error "Post \"https://jooble.org/api/k\": context canceled") [] =
      Outcome.cancelled ∧
    backgroundTask (fun _ => false)
      (Except.error "Post \"https://jooble.org/api/k\": connection refused") [] =
      Outcome.failed "Post \"https://jooble.org/api/k\": connection refused" := by
  constructor
  · decide
  · decide

/-- Claim C9 amended: the Online Search Client itself distinguishes a
cancelled transport failure by inspecting the cancellation state — the
cancel channel and the request context's error — and the message it
produces is one of the two cancellation messages exactly when one of
those flags is set, independently of the transport error text; the
orchestrator's handler, however, additionally classifies any error whose
text contains "context canceled" as a cancellation by substring-matching
the message. -/
theorem cancellation_detection_amended :
    (∀ (chClosed ctxCanceled : Bool) (m : String),
       isCancelMsg (classifyDoError chClosed ctxCanceled m) = (chClosed || ctxCanceled)) ∧
    (∀ (e : String) (snapshot : List Vacancy),
       backgroundTask (fun _ => false) (Except.error e) snapshot =
         if containsSub e "context canceled" = true then Outcome.cancelled
         else Outcome.failed e) := by
  constructor
  · intro chClosed ctxCanceled m
    cases chClosed
    · cases ctxCanceled
      · show isCancelMsg ("ошибка выполнения HTTP запроса: " ++ m) = false
        rw [isCancelMsg, Bool.or_eq_false_iff]
        constructor
        · rw [beq_eq_false_iff_ne]
          intro h
          have h2 := congrArg String.data h
          simp [String.data] at h2
        · rw [beq_eq_false_iff_ne]
          intro h
          have h2 := congrArg String.data h
          simp [String.data] at h2
      · rfl
    · rfl
  · intro e snapshot
    rfl


/-- Record with title "Dev" (key "dev" in column 0). -/
def vacT1 : Vacancy :=
  { title := "Dev", company := "First Co", description := "", keywords := [],
    sourceURL := "", status := "Новая", experienceLevel := "Не указан",
    notes := "", resumePath := "", resumeFileName := "" }

/-- Record with title "dev": its column-0 key equals vacT1's. -/
def vacT2 : Vacancy :=
  { vacT1 with title := "dev", company := "Second Co" }

/-! ## Sort theory (claim C7)

`sort.SliceStable` with the `Less` comparison is modelled by `sliceStable`.
Throughout, `keyLt key` is the ascending comparison on the case-insensitive
sort key, and the descending comparison is its pointwise negation, exactly
as in `(*VacancyModel).Less`. -/

/-- The ascending key comparison `Less` uses for one column. -/
def keyLt (key : Vacancy → String) (a b : Vacancy) : Bool := strLt (key a) (key b)

theorem strLt_irrefl (s : String) : strLt s s = false := lexLt_irrefl s.data

theorem strLt_asymm (s t : String) (h : strLt s t = true) : strLt t s = false :=
  lexLt_asymm s.data t.data h

theorem strLt_of_lt_of_nlt (a b c : String)
    (h1 : strLt a b = true) (h2 : strLt c b = false) : strLt a c = true :=
  lexLt_of_lt_of_nlt a.data b.data c.data h1 h2

theorem keyLt_irrefl_of_eq (key : Vacancy → String) (a b : Vacancy)
    (h : key a = key b) : keyLt key a b = false := by
  unfold keyLt
  rw [h]
  exact strLt_irrefl (key b)

theorem bubbleRev_eq {α : Type} (less : α → α → Bool) (x : α) :
    ∀ r : List α, bubbleRev less x r =
      r.takeWhile (fun y => less x y) ++ x :: r.dropWhile (fun y => less x y) := by
  intro r
  induction r with
  | nil => rfl
  | cons y ys ih =>
    rw [bubbleRev]
    by_cases hy : less x y = true
    · rw [if_pos hy, ih, List.takeWhile_cons, if_pos hy, List.dropWhile_cons, if_pos hy,
        List.cons_append]
    · rw [Bool.not_eq_true] at hy
      rw [if_neg (by rw [hy]; exact Bool.false_ne_true), List.takeWhile_cons, hy,
        List.dropWhile_cons, hy]
      rfl

/-- Every element surviving the `dropWhile` of an insertion into a
reverse-sorted prefix compares not-less against the inserted element. -/
theorem dropWhile_all_nlt (key : Vacancy → String) (x : Vacancy) (r : List Vacancy)
    (h : List.Pairwise (fun p q => keyLt key p q = false) r) :
    ∀ q ∈ r.dropWhile (fun y => keyLt key x y), keyLt key x q = false := by
  intro q hq
  cases hd : r.dropWhile (fun y => keyLt key x y) with
  | nil => rw [hd] at hq; simp at hq
  | cons d0 D =>
    have hhead : keyLt key x d0 = false := by
      have := head?_dropWhile_false (fun y => keyLt key x y) r d0
      rw [hd] at this
      exact this rfl
    have hpwD : List.Pairwise (fun p q => keyLt key p q = false) (d0 :: D) := by
      rw [← hd]
      exact h.sublist (List.dropWhile_sublist _)
    rw [hd] at hq
    rcases List.mem_cons.mp hq with rfl | hq
    · exact hhead
    · have hd0q : keyLt key d0 q = false := (List.pairwise_cons.mp hpwD).1 q hq
      cases hxq : keyLt key x q with
      | false => rfl
      | true =>
        exfalso
        have : keyLt key x d0 = true := strLt_of_lt_of_nlt (key x) (key q) (key d0) hxq hd0q
        rw [hhead] at this
        cases this

/-- Inserting into a reverse-sorted prefix keeps it reverse-sorted. -/
theorem bubbleRev_pairwise (key : Vacancy → String) (x : Vacancy) (r : List Vacancy)
    (h : List.Pairwise (fun p q => keyLt key p q = false) r) :
    List.Pairwise (fun p q => keyLt key p q = false) (bubbleRev (keyLt key) x r) := by
  rw [bubbleRev_eq]
  have hsplit : List.Pairwise (fun p q => keyLt key p q = false)
      (r.takeWhile (fun y => keyLt key x y) ++ r.dropWhile (fun y => keyLt key x y)) := by
    rw [List.takeWhile_append_dropWhile]
    exact h
  rcases List.pairwise_append.mp hsplit with ⟨hT, hD, hTD⟩
  rw [List.pairwise_append]
  refine ⟨hT, ?_, ?_⟩
  · rw [List.pairwise_cons]
    exact ⟨dropWhile_all_nlt key x r h, hD⟩
  · intro a ha b hb
    rcases List.mem_cons.mp hb with hbx | hb
    · have hxa : keyLt key x a = true :=
        mem_takeWhile_true (fun y => keyLt key x y) r a ha
      rw [hbx]
      exact strLt_asymm (key x) (key a) hxa
    · exact hTD a ha b hb

theorem foldl_bubbleRev_pairwise (key : Vacancy → String) :
    ∀ (l racc : List Vacancy),
      List.Pairwise (fun p q => keyLt key p q = false) racc →
      List.Pairwise (fun p q => keyLt key p q = false)
        (l.foldl (fun acc x => bubbleRev (keyLt key) x acc) racc) := by
  intro l
  induction l with
  | nil => intro racc h; exact h
  | cons x l' ih =>
    intro racc h
    exact ih (bubbleRev (keyLt key) x racc) (bubbleRev_pairwise key x racc h)

/-- The sorted output of the ascending stable sort, read in list order, is
non-decreasing in the key. -/
theorem sliceStable_sorted (key : Vacancy → String) (l : List Vacancy) :
    List.Pairwise (fun p q => keyLt key q p = false) (sliceStable (keyLt key) l) := by
  rw [sliceStable, List.pairwise_reverse]
  exact foldl_bubbleRev_pairwise key l [] (List.Pairwise.nil)


/-- One insertion step seen through the equal-key filter: the inserted
element never passes an element with the same key (the ascending
comparison is irreflexive on equal keys), so it lands after all of them. -/
theorem bubbleRev_filter (key : Vacancy → String) (x : Vacancy) (r : List Vacancy)
    (k : String) :
    (bubbleRev (keyLt key) x r).filter (fun a => key a == k) =
      if (key x == k) = true then x :: r.filter (fun a => key a == k)
      else r.filter (fun a => key a == k) := by
  rw [bubbleRev_eq, List.filter_append, List.filter_cons]
  by_cases hx : (key x == k) = true
  · rw [if_pos hx, if_pos hx]
    have hT : (r.takeWhile (fun y => keyLt key x y)).filter (fun a => key a == k) = [] := by
      rw [List.filter_eq_nil_iff]
      intro y hy
      have hlt : keyLt key x y = true :=
        mem_takeWhile_true (fun y => keyLt key x y) r y hy
      intro hyk
      have hxk : key x = k := beq_iff_eq.mp hx
      have hyk' : key y = k := beq_iff_eq.mp hyk
      have : keyLt key x y = false := keyLt_irrefl_of_eq key x y (hxk.trans hyk'.symm)
      rw [hlt] at this
      cases this
    rw [hT, List.nil_append]
    have hr : r.filter (fun a => key a == k) =
        (r.takeWhile (fun y => keyLt key x y)).filter (fun a => key a == k) ++
        (r.dropWhile (fun y => keyLt key x y)).filter (fun a => key a == k) := by
      rw [← List.filter_append, List.takeWhile_append_dropWhile]
    rw [hr, hT, List.nil_append]
  · rw [if_neg hx, if_neg hx, ← List.filter_append, List.takeWhile_append_dropWhile]

theorem foldl_bubbleRev_filter (key : Vacancy → String) (k : String) :
    ∀ (l racc : List Vacancy),
      (l.foldl (fun acc x => bubbleRev (keyLt key) x acc) racc).filter
          (fun a => key a == k) =
        (l.filter (fun a => key a == k)).reverse ++ racc.filter (fun a => key a == k) := by
  intro l
  induction l with
  | nil => intro racc; rfl
  | cons x l' ih =>
    intro racc
    show (l'.foldl (fun acc x => bubbleRev (keyLt key) x acc)
        (bubbleRev (keyLt key) x racc)).filter (fun a => key a == k) = _
    rw [ih (bubbleRev (keyLt key) x racc), bubbleRev_filter, List.filter_cons]
    by_cases hx : (key x == k) = true
    · rw [if_pos hx, if_pos hx, List.reverse_cons, List.append_assoc]
      rfl
    · rw [if_neg hx, if_neg hx]

/-- Ties keep their snapshot order under the ascending stable sort: the
equal-key sublists of input and output coincide. -/
theorem sliceStable_filter_asc (key : Vacancy → String) (l : List Vacancy) (k : String) :
    (sliceStable (keyLt key) l).filter (fun a => key a == k) =
      l.filter (fun a => key a == k) := by
  rw [sliceStable, List.filter_reverse, foldl_bubbleRev_filter key k l []]
  show ((l.filter (fun a => key a == k)).reverse ++ []).reverse = _
  rw [List.append_nil, List.reverse_reverse]

/-- Sorting an already-sorted (ascending) list is the identity. -/
theorem sliceStable_sorted_id (key : Vacancy → String) :
    ∀ (rest pre : List Vacancy),
      List.Pairwise (fun p q => keyLt key q p = false) (pre ++ rest) →
      rest.foldl (fun acc x => bubbleRev (keyLt key) x acc) pre.reverse =
        (pre ++ rest).reverse := by
  intro rest
  induction rest with
  | nil =>
    intro pre _
    rw [List.append_nil]
    rfl
  | cons x rest' ih =>
    intro pre h
    have hins : bubbleRev (keyLt key) x pre.reverse = x :: pre.reverse := by
      have hhead : ∀ a, pre.reverse.head? = some a → keyLt key x a = false := by
        intro a ha
        have hmem : a ∈ pre := by
          rw [← List.mem_reverse]
          exact List.mem_of_mem_head? ha
        have hrel := List.pairwise_append.mp h
        exact hrel.2.2 a hmem x (List.mem_cons_self x rest')
      rw [bubbleRev_eq,
        takeWhile_head_false (fun y => keyLt key x y) pre.reverse hhead,
        dropWhile_head_false (fun y => keyLt key x y) pre.reverse hhead,
        List.nil_append]
    show (rest'.foldl (fun acc x => bubbleRev (keyLt key) x acc)
        (bubbleRev (keyLt key) x pre.reverse)) = _
    rw [hins]
    have hx : x :: pre.reverse = (pre ++ [x]).reverse := by
      rw [List.reverse_append]
      rfl
    rw [hx, ih (pre ++ [x]) (by rw [List.append_assoc]; exact h),
      List.append_assoc]
    rfl

/-- The descending insertion into the reversed prefix mirrors the
ascending insertion exactly. -/
theorem bubbleRev_desc_rev (key : Vacancy → String) (x : Vacancy) (r : List Vacancy)
    (h : List.Pairwise (fun p q => keyLt key p q = false) r) :
    bubbleRev (fun a b => !(keyLt key a b)) x r.reverse =
      (bubbleRev (keyLt key) x r).reverse := by
  have hrevr : r.reverse =
      (r.dropWhile (fun y => keyLt key x y)).reverse ++
      (r.takeWhile (fun y => keyLt key x y)).reverse := by
    rw [← List.reverse_append, List.takeWhile_append_dropWhile]
  have hD : ∀ y ∈ (r.dropWhile (fun y => keyLt key x y)).reverse,
      (fun y => !(keyLt key x y)) y = true := by
    intro y hy
    rw [List.mem_reverse] at hy
    have := dropWhile_all_nlt key x r h y hy
    show (!(keyLt key x y)) = true
    rw [this]
    rfl
  have hThead : ∀ a, (r.takeWhile (fun y => keyLt key x y)).reverse.head? = some a →
      (fun y => !(keyLt key x y)) a = false := by
    intro a ha
    have hmem : a ∈ r.takeWhile (fun y => keyLt key x y) := by
      rw [← List.mem_reverse]
      exact List.mem_of_mem_head? ha
    have h2 : keyLt key x a = true :=
      mem_takeWhile_true (fun y => keyLt key x y) r a hmem
    show (!(keyLt key x a)) = false
    rw [h2]
    rfl
  rw [bubbleRev_eq, bubbleRev_eq, hrevr,
    takeWhile_append_all _ _ _ hD, dropWhile_append_all _ _ _ hD,
    takeWhile_head_false _ _ hThead, dropWhile_head_false _ _ hThead,
    List.append_nil, List.reverse_append, List.reverse_cons, List.append_assoc]
  rfl

/-- The descending stable sort is extensionally the reverse of the
ascending stable sort. -/
theorem foldl_desc_rev (key : Vacancy → String) :
    ∀ (l racc : List Vacancy),
      List.Pairwise (fun p q => keyLt key p q = false) racc →
      l.foldl (fun acc x => bubbleRev (fun a b => !(keyLt key a b)) x acc) racc.reverse =
        (l.foldl (fun acc x => bubbleRev (keyLt key) x acc) racc).reverse := by
  intro l
  induction l with
  | nil => intro racc _; rfl
  | cons x l' ih =>
    intro racc h
    show l'.foldl (fun acc x => bubbleRev (fun a b => !(keyLt key a b)) x acc)
        (bubbleRev (fun a b => !(keyLt key a b)) x racc.reverse) = _
    rw [bubbleRev_desc_rev key x racc h,
      ih (bubbleRev (keyLt key) x racc) (bubbleRev_pairwise key x racc h)]
    rfl

theorem sliceStable_desc_eq_reverse (key : Vacancy → String) (l : List Vacancy) :
    sliceStable (fun a b => !(keyLt key a b)) l = (sliceStable (keyLt key) l).reverse := by
  rw [sliceStable, sliceStable]
  have h0 := foldl_desc_rev key l [] (List.Pairwise.nil)
  rw [show (([] : List Vacancy)).reverse = ([] : List Vacancy) from rfl] at h0
  rw [h0]

/-- Idempotence of the ascending stable sort. -/
theorem sliceStable_idem (key : Vacancy → String) (l : List Vacancy) :
    sliceStable (keyLt key) (sliceStable (keyLt key) l) = sliceStable (keyLt key) l := by
  have hsorted := sliceStable_sorted key l
  have hid := sliceStable_sorted_id key (sliceStable (keyLt key) l) []
    (by rw [List.nil_append]; exact hsorted)
  rw [List.nil_append] at hid
  show ((sliceStable (keyLt key) l).foldl
    (fun acc x => bubbleRev (keyLt key) x acc) (([] : List Vacancy)).reverse).reverse = _
  rw [hid, List.reverse_reverse]

theorem Less_ascending (col : Nat) :
    Less col SortOrder.ascending = keyLt (sortKey col) := by
  funext a b
  rfl

theorem Less_descending (col : Nat) :
    Less col SortOrder.descending = fun a b => !(keyLt (sortKey col) a b) := by
  funext a b
  rfl

/-- Counterexample to claim C7: two records whose case-insensitive title
keys are equal ("Dev" and "dev").  A descending sort swaps them, so equal
keys do not keep their original relative order under descending order;
sorting the result again with the same column and order swaps them back,
so descending sort is not idempotent either.  The comparator-inverted
descending order is extensionally exactly a reversal of the ascending
sorted sequence, contrary to the claim's parenthetical. -/
theorem sort_ties_counterexample :
    vacancySort 0 SortOrder.descending [vacT1, vacT2] = [vacT2, vacT1] ∧
    vacancySort 0 SortOrder.descending (vacancySort 0 SortOrder.descending [vacT1, vacT2]) =
      [vacT1, vacT2] ∧
    vacancySort 0 SortOrder.ascending [vacT1, vacT2] = [vacT1, vacT2] := by
  refine ⟨by decide, by decide, by decide⟩

/-- Claim C7 amended: `Sort` with ascending order is idempotent and keeps
records with equal case-insensitive keys in their original relative
order; `Sort` with descending order, implemented as the negated ascending
comparator fed to the stable sort, is extensionally the reverse of the
ascending result, so records with equal keys appear in reversed original
order, and descending sort with ties present is not idempotent (a second
descending sort restores the original tie order). -/
theorem sort_amended (col : Nat) (l : List Vacancy) :
    vacancySort col SortOrder.ascending (vacancySort col SortOrder.ascending l) =
      vacancySort col SortOrder.ascending l ∧
    (∀ k : String,
      (vacancySort col SortOrder.ascending l).filter (fun v => sortKey col v == k) =
        l.filter (fun v => sortKey col v == k)) ∧
    vacancySort col SortOrder.descending l =
      (vacancySort col SortOrder.ascending l).reverse ∧
    (∀ k : String,
      (vacancySort col SortOrder.descending l).filter (fun v => sortKey col v == k) =
        (l.filter (fun v => sortKey col v == k)).reverse) := by
  have hasc : ∀ m : List Vacancy,
      vacancySort col SortOrder.ascending m = sliceStable (keyLt (sortKey col)) m := by
    intro m
    rw [vacancySort, Less_ascending]
  have hdesc : ∀ m : List Vacancy,
      vacancySort col SortOrder.descending m =
        sliceStable (fun a b => !(keyLt (sortKey col) a b)) m := by
    intro m
    rw [vacancySort, Less_descending]
  refine ⟨?_, ?_, ?_, ?_⟩
  · simp only [hasc]
    exact sliceStable_idem (sortKey col) l
  · intro k
    rw [hasc]
    exact sliceStable_filter_asc (sortKey col) l k
  · rw [hasc, hdesc]
    exact sliceStable_desc_eq_reverse (sortKey col) l
  · intro k
    rw [hdesc, sliceStable_desc_eq_reverse (sortKey col) l, List.filter_reverse,
      sliceStable_filter_asc (sortKey col) l k]

end VacancyApp
